import Mathlib

/-!
# Verification of the YouTube cluster app's clustering core

Shallow embedding of the repository's clustering pipeline
(`src/clustering/vectorize.py`, `src/clustering/cluster.py`,
`src/enhanced_clustering.py`) and proofs about it.

Modelling conventions:
* Python floats are modelled as real numbers (`ℝ`); numeric JSON fields of a
  channel record are modelled as rationals (`ℚ`) and cast to `ℝ` where the code
  does float arithmetic.
* A numpy `nan` produced by a zero-variance standardization is modelled by
  `Option ℝ` (`none` = nan).
* Python dictionaries keyed by strings are modelled as association lists;
  insertion-order iteration of `dict.items()` is the list order, and the
  uniqueness of dict keys becomes a `Nodup` hypothesis where it matters.
* External library calls with no source in the repo (the sentence-transformer
  encoder, sklearn's KMeans/DBSCAN fit, `silhouette_score`, PCA) are abstract
  function parameters: the theorems hold for every choice of these functions.
-/

namespace YTCluster

/-- A raw subscribed-channel record, as loaded from `load_subscriptions` and
consumed by `vectorize_channels` / `enhance_embeddings_with_relationships`.
`none` models an absent dictionary key (`channel.get(k)` returning `None`). -/
structure Channel where
  channel_id : Option String
  title : Option String
  description : Option String
  subscriber_count : Option ℚ
  video_count : Option ℚ
  view_count : Option ℚ
  avg_views_per_video : Option ℚ
  avg_likes_per_video : Option ℚ
  avg_comments_per_video : Option ℚ
  engagement_rate : Option ℚ
  deriving Repr, DecidableEq

/-! ## Vector helpers (numpy elementwise operations on row vectors) -/

/-- Elementwise sum of two vectors (numpy `+` on equal-shape arrays). -/
noncomputable def vAdd (v u : List ℝ) : List ℝ := List.zipWith (· + ·) v u

/-- Scalar multiple of a vector (numpy scalar broadcasting). -/
noncomputable def smul (c : ℝ) (v : List ℝ) : List ℝ := v.map (fun x => c * x)

/-- Model of `np.mean(vs, axis=0)` for a list of row vectors: componentwise sum divided
by the number of rows.  Only applied to non-empty lists by the code. -/
noncomputable def vecMean : List (List ℝ) → List ℝ
  | [] => []
  | v :: rest => smul (1 / ((v :: rest).length : ℝ)) (rest.foldl vAdd v)

/-- Column `k` of a row-major matrix (`m[:, k]`). -/
noncomputable def column (m : List (List ℝ)) (k : ℕ) : List ℝ :=
  m.map (fun r => r.getD k 0)

/-- Model of `np.mean` of a 1-D array. -/
noncomputable def colMean (c : List ℝ) : ℝ := c.sum / (c.length : ℝ)

/-- Model of `np.std` of a 1-D array (population standard deviation, `ddof=0`). -/
noncomputable def npStd (c : List ℝ) : ℝ :=
  Real.sqrt ((c.map (fun x => (x - colMean c) ^ 2)).sum / (c.length : ℝ))

/-! ## `enhance_embeddings_with_relationships` (src/enhanced_clustering.py) -/

/-- The `(channel_id, index)` pairs contributing to the dict comprehension
`{channel.get('channel_id'): i for i, channel in enumerate(channels)
if channel.get('channel_id')}`: a channel contributes iff its id is present and
truthy (non-empty string).  `n` is the index of the first channel. -/
def idIndexPairs : List Channel → ℕ → List (String × ℕ)
  | [], _ => []
  | ch :: rest, n =>
    match ch.channel_id with
    | some s => if s = "" then idIndexPairs rest (n + 1) else (s, n) :: idIndexPairs rest (n + 1)
    | none => idIndexPairs rest (n + 1)

/-- Model of `channel_id_to_index[cid]`: the dict built by the comprehension maps each id
to the index of the *last* channel carrying it (later entries overwrite). -/
def channelIdToIndex (C : List Channel) (cid : String) : Option ℕ :=
  (((idIndexPairs C 0).filter (fun p => p.1 = cid)).getLast?).map Prod.snd

/-- The four raw engagement metrics of a channel, in the order the code writes
them into `engagement_features[i]` (each `channel.get(k, 0)`). -/
def engagementRowQ (ch : Channel) : List ℚ :=
  [ch.avg_views_per_video.getD 0, ch.avg_likes_per_video.getD 0,
   ch.avg_comments_per_video.getD 0, ch.engagement_rate.getD 0]

/-- The raw engagement-feature row as reals. -/
noncomputable def engagementRow (ch : Channel) : List ℝ :=
  (engagementRowQ ch).map (fun q => (q : ℝ))

/-- Model of `engagement_features = (ef - ef.mean(axis=0)) / (ef.std(axis=0) + 1e-8)`:
per-column standardization of the engagement-feature matrix with an epsilon
added to the standard deviation. -/
noncomputable def normalizeEngagement (C : List Channel) : List (List ℝ) :=
  let m := C.map engagementRow
  m.map (fun r => (List.range r.length).map
    (fun k => (r.getD k 0 - colMean (column m k)) / (npStd (column m k) + 1e-8)))

/-- Model of `engagement_weights = np.mean(engagement_features, axis=1)`: the per-row
mean of the normalized engagement features. -/
noncomputable def engagementWeights (C : List Channel) : List ℝ :=
  (normalizeEngagement C).map (fun r => r.sum / (r.length : ℝ))

/-- Model of `engagement_embeddings = embeddings * engagement_weights`: row `i` of the
embedding matrix scaled by the `i`-th engagement weight. -/
noncomputable def engagementEmbeddings (E : List (List ℝ)) (C : List Channel) :
    List (List ℝ) :=
  List.zipWith (fun v w => v.map (fun x => x * w)) E (engagementWeights C)

/-- The blended row written by the loop body:
`(1 - weight) * embeddings[i] + weight * 0.7 * avg_sub_embedding
 + weight * 0.3 * avg_sub_engagement`. -/
noncomputable def blendRow (w : ℝ) (orig avgSub avgEng : List ℝ) : List ℝ :=
  vAdd (vAdd (smul (1 - w) orig) (smul (w * 0.7) avgSub)) (smul (w * 0.3) avgEng)

/-- One iteration of `for channel_id, subscribed_to in subscription_graph.items()`:
skip unknown ids, collect the resolvable targets, and if any exist overwrite the
channel's row in the accumulator with the blend (reads always come from the
original matrix `E`). -/
noncomputable def enhanceStep (E : List (List ℝ)) (C : List Channel) (w : ℝ)
    (acc : List (List ℝ)) (entry : String × List String) : List (List ℝ) :=
  match channelIdToIndex C entry.1 with
  | none => acc
  | some i =>
    let tIdx := entry.2.filterMap (channelIdToIndex C)
    if tIdx = [] then acc
    else acc.set i (blendRow w (E.getD i [])
      (vecMean (tIdx.map (fun j => E.getD j [])))
      (vecMean (tIdx.map (fun j => (engagementEmbeddings E C).getD j []))))

/-- Model of `enhance_embeddings_with_relationships(embeddings, channels,
subscription_graph, weight)`.  The subscription graph is the association list of
`subscription_graph.items()`. -/
noncomputable def enhance (E : List (List ℝ)) (C : List Channel)
    (G : List (String × List String)) (w : ℝ) : List (List ℝ) :=
  G.foldl (enhanceStep E C w) E

/-- The resolvable-target index list of the first graph entry that writes row
`i` (an entry writes iff its id resolves to `i` and it has at least one
resolvable target).  Under distinct graph keys there is at most one such
entry, so "first" is also "last". -/
def writesTo (C : List Channel) : List (String × List String) → ℕ → Option (List ℕ)
  | [], _ => none
  | (cid, subs) :: rest, i =>
    match channelIdToIndex C cid with
    | some j =>
      if j = i ∧ subs.filterMap (channelIdToIndex C) ≠ []
      then some (subs.filterMap (channelIdToIndex C))
      else writesTo C rest i
    | none => writesTo C rest i

/-- The simultaneous per-row description of the enhancer: row `i` of the output
as a function of the *original* matrix only. -/
noncomputable def enhancedRowPure (E : List (List ℝ)) (C : List Channel)
    (G : List (String × List String)) (w : ℝ) (i : ℕ) : List ℝ :=
  match writesTo C G i with
  | some ts => blendRow w (E.getD i [])
      (vecMean (ts.map (fun j => E.getD j [])))
      (vecMean (ts.map (fun j => (engagementEmbeddings E C).getD j [])))
  | none => E.getD i []

/-! ## String helpers (Python `str.count` and `re.search` on fixed words) -/

/-- Python's `str.lower()`: lower-case every character (the repo's strings are
ASCII, where this agrees with the charwise `Char.toLower` map). -/
def lowerStr (s : String) : String := String.mk (s.data.map Char.toLower)

/-- Left-to-right scan counting non-overlapping occurrences of a non-empty
`needle`: after a match, the next `needle.length - 1` positions are skipped. -/
def countOccsAux (needle : List Char) : List Char → ℕ → ℕ
  | [], _ => 0
  | _ :: rest, skip + 1 => countOccsAux needle rest skip
  | c :: rest, 0 =>
    if needle.isPrefixOf (c :: rest) then 1 + countOccsAux needle rest (needle.length - 1)
    else countOccsAux needle rest 0

/-- Python's `haystack.count(needle)`: number of non-overlapping occurrences of
`needle` scanning left to right (an empty needle is counted at every position,
matching Python's `len(haystack) + 1`). -/
def countOccs (needle hay : List Char) : ℕ :=
  if needle = [] then hay.length + 1 else countOccsAux needle hay 0

/-- Model of `haystack.count(needle)` on strings. -/
def strCount (needle hay : String) : ℕ := countOccs needle.toList hay.toList

/-- Whether `needle` occurs somewhere in `hay` (Python
`bool(re.search(needle, hay))` for a plain-word pattern). -/
def containsSubstr (hay needle : String) : Bool := strCount needle hay ≠ 0

/-! ## `vectorize_channels` (src/clustering/vectorize.py) -/

/-- Model of `re.search(r'(twitter|facebook|instagram|tiktok)', description)` on the
lower-cased description. -/
def hasSocialLinks (desc : String) : Bool :=
  containsSubstr desc "twitter" || containsSubstr desc "facebook" ||
    containsSubstr desc "instagram" || containsSubstr desc "tiktok"

/-- Model of `re.search(r'(http|www)', description)` on the lower-cased description. -/
def hasWebsite (desc : String) : Bool :=
  containsSubstr desc "http" || containsSubstr desc "www"

/-- Model of `extract_metadata_features(channel)`, in the dict's insertion order:
log-scaled subscriber count, log-scaled video count, views per video, and the
two boolean description features (numpy coerces the booleans to `1.0/0.0`). -/
noncomputable def metadataRow (ch : Channel) : List ℝ :=
  let desc := lowerStr (ch.description.getD "")
  let videoCount : ℚ := ch.video_count.getD 0
  [Real.log (1 + (ch.subscriber_count.getD 0 : ℝ)),
   Real.log (1 + (videoCount : ℝ)),
   (ch.view_count.getD 0 : ℝ) / ((max videoCount 1 : ℚ) : ℝ),
   if hasSocialLinks desc then 1 else 0,
   if hasWebsite desc then 1 else 0]

/-- One standardized entry `(x - mean) / std` of
`(metadata_features - metadata_features.mean(axis=0)) / metadata_features.std(axis=0)`.
There is **no** epsilon here: when the column is constant the std is `0`, the
numerator is also `0`, and numpy produces `nan` — modelled as `none`. -/
noncomputable def stdScale (x mean std : ℝ) : Option ℝ :=
  if std = 0 then none else some ((x - mean) / std)

/-- A whole standardized metadata row, entry `k` scaled by the mean/std of
column `k` of the full metadata matrix `m`. -/
noncomputable def standardizeRow (m : List (List ℝ)) (r : List ℝ) : List (Option ℝ) :=
  (List.range r.length).map
    (fun k => stdScale (r.getD k 0) (colMean (column m k)) (npStd (column m k)))

/-- The text blob embedded for a channel:
`f"{channel.get('title', '')} {channel.get('description', '')}"`. -/
def channelText (ch : Channel) : String :=
  (ch.title.getD "") ++ " " ++ (ch.description.getD "")

/-- The batching loop `for i in range(0, len(texts), batch_size)` with
`batch_size = 32`: successive slices `texts[i:i+32]`. -/
def toBatches : List α → List (List α)
  | [] => []
  | l@(_ :: _) => l.take 32 :: toBatches (l.drop 32)
termination_by l => l.length
decreasing_by simp_all [List.length_drop]; omega

/-- Model of `vectorize_channels(channels)` restricted to the embedding matrix it
returns.  The sentence-transformer is the abstract parameter `encode` (no
source in this repo; `model.encode(batch)` maps each text of the batch to its
vector).  The per-batch results are stacked with `np.vstack`, which raises on
an empty batch list — i.e. on an empty channel list — modelled as `none`.
Content columns are always defined (`some`); metadata columns may be `nan`. -/
noncomputable def vectorizeChannels (encode : String → List ℝ) (channels : List Channel) :
    Option (List (List (Option ℝ))) :=
  let texts := channels.map channelText
  let batchEmbeds := (toBatches texts).map (fun b => b.map encode)
  if batchEmbeds = [] then none
  else
    let meta := channels.map metadataRow
    let metaStd := meta.map (standardizeRow meta)
    some (List.zipWith (fun c r => c.map some ++ r) batchEmbeds.flatten metaStd)

/-- The per-record row the spec's index-alignment law promises: the feature
vector of record `ch` alone (its embedded text, then its standardized metadata
against the whole run's column statistics), independent of batching. -/
noncomputable def vectorizedRow (encode : String → List ℝ) (channels : List Channel)
    (ch : Channel) : List (Option ℝ) :=
  (encode (channelText ch)).map some ++
    standardizeRow (channels.map metadataRow) (metadataRow ch)

/-! ## `create_clusters` (src/clustering/cluster.py) -/

/-- One enriched channel dictionary as placed into a cluster's member list by
`create_clusters` (keys `channel_id`, `title`, ..., `x`, `y`).  The
`engagement_rate` and `keywords` keys are *not* produced by `create_clusters`
(they may appear in other cluster-result values fed to the namer), so they are
optional here; `none` models an absent key. -/
structure GroupedChannel where
  channel_id : Option String
  title : Option String
  description : Option String
  subscriber_count : Option ℚ
  video_count : Option ℚ
  x : ℝ
  y : ℝ
  engagement_rate : Option ℚ
  keywords : Option (List String)

/-- The per-cluster metadata dict written by `name_clusters`. -/
structure ClusterMeta where
  avg_engagement : ℚ
  size : ℕ
  top_categories : List String
  engagement_level : String

/-- The cluster-result dictionary.  Optional fields model optional keys;
`cluster_names`/`cluster_metadata` start empty (`setdefault`). -/
structure Clusters where
  algorithm : String
  n_clusters : ℤ
  silhouette_score : Option ℝ
  labels : List ℤ
  reduced_data : Option (List (List ℝ))
  explained_variance : Option (List ℝ)
  channels : Option (List (String × List GroupedChannel))
  cluster_names : List (String × String)
  cluster_metadata : List (String × ClusterMeta)

/-- Insert into a Python dict of lists: append to the existing key's list, or
add the key at the end (dicts iterate in insertion order). -/
def addToGroup : List (String × List β) → String → β → List (String × List β)
  | [], k, v => [(k, [v])]
  | (k', vs) :: rest, k, v =>
    if k' = k then (k', vs ++ [v]) :: rest else (k', vs) :: addToGroup rest k v

/-- The member dict appended for channel `i`:  `x`/`y` come from the PCA
projection when the feature space has more than 2 columns, else from the first
two feature columns. -/
noncomputable def mkGroupedChannel (E : List (List ℝ)) (reduced : List (List ℝ))
    (useReduced : Bool) (i : ℕ) (ch : Channel) : GroupedChannel :=
  { channel_id := ch.channel_id
    title := ch.title
    description := ch.description
    subscriber_count := ch.subscriber_count
    video_count := ch.video_count
    x := if useReduced then (reduced.getD i []).getD 0 0 else (E.getD i []).getD 0 0
    y := if useReduced then (reduced.getD i []).getD 1 0 else (E.getD i []).getD 1 0
    engagement_rate := none
    keywords := none }

/-- Model of `for i, channel in enumerate(channels): cluster_channels[str(labels[i])].append(...)`. -/
noncomputable def groupChannels (labels : List ℤ) (E : List (List ℝ))
    (reduced : List (List ℝ)) (useReduced : Bool) (chs : List Channel) :
    List (String × List GroupedChannel) :=
  chs.enum.foldl
    (fun g p => addToGroup g (toString (labels.getD p.1 0))
      (mkGroupedChannel E reduced useReduced p.1 p.2))
    []

/-- Model of `create_clusters(embeddings, channels, n_clusters, algorithm)`.
The sklearn calls are the abstract parameters `fitLabels` (the fitted model's
`labels_`), `silh` (`silhouette_score`) and `pca` (the 2-component projection
and its explained-variance ratio).  The silhouette score is computed only when
`len(set(labels)) > 1 and min(labels) >= 0` (short-circuit `and`, so the `min`
of an empty label list is never taken); otherwise it is `None`. -/
noncomputable def createClusters (fitLabels : List (List ℝ) → List ℤ)
    (silh : List (List ℝ) → List ℤ → ℝ)
    (pca : List (List ℝ) → List (List ℝ) × List ℝ)
    (E : List (List ℝ)) (channels : Option (List Channel))
    (n_clusters : ℕ) (algorithm : String) : Clusters :=
  let labels := fitLabels E
  let nClustersOut : ℤ :=
    if lowerStr algorithm = "dbscan"
    then (labels.dedup.length : ℤ) - (if (-1 : ℤ) ∈ labels then 1 else 0)
    else (n_clusters : ℤ)
  let silhouette : Option ℝ :=
    if 1 < labels.dedup.length ∧ ∀ l ∈ labels, 0 ≤ l
    then some (silh E labels) else none
  let useReduced := 2 < (E.headD []).length
  let reduced := (pca E).1
  { algorithm := algorithm
    n_clusters := nClustersOut
    silhouette_score := silhouette
    labels := labels
    reduced_data := if useReduced then some reduced else none
    explained_variance := if useReduced then some (pca E).2 else none
    channels :=
      match channels with
      | some (c :: cs) => some (groupChannels labels E reduced useReduced (c :: cs))
      | _ => none
    cluster_names := []
    cluster_metadata := [] }

/-! ## `find_optimal_weight` (src/enhanced_clustering.py) -/

/-- The candidate-weight loop of `find_optimal_weight`.  For each weight the
code reads `clusters.get('silhouette_score', -1)`; the key is always present,
so when the stored score is `None` the default `-1` is *not* used and the
subsequent `f"{score:.3f}"` / `score > best_score` raise a `TypeError` —
modelled as `Except.error`.  State is `(best_score, best_weight)`. -/
noncomputable def weightSweep (fitLabels : List (List ℝ) → List ℤ)
    (silh : List (List ℝ) → List ℤ → ℝ)
    (pca : List (List ℝ) → List (List ℝ) × List ℝ)
    (E : List (List ℝ)) (C : List Channel) (G : List (String × List String)) :
    List ℝ → ℝ × ℝ → Except String ℝ
  | [], best => Except.ok best.2
  | w :: rest, (bestScore, bestW) =>
    let clusters := createClusters fitLabels silh pca (enhance E C G w) (some C) 7 "kmeans"
    match clusters.silhouette_score with
    | none => Except.error "TypeError: NoneType does not support formatting or comparison"
    | some s =>
      if bestScore < s then weightSweep fitLabels silh pca E C G rest (s, w)
      else weightSweep fitLabels silh pca E C G rest (bestScore, bestW)

/-- Model of `find_optimal_weight(embeddings, channels, subscription_graph)`: sweep the
five candidate weights `np.linspace(0.1, 0.5, 5)` starting from
`best_score = -1`, `best_weight = 0.3`. -/
noncomputable def findOptimalWeight (fitLabels : List (List ℝ) → List ℤ)
    (silh : List (List ℝ) → List ℤ → ℝ)
    (pca : List (List ℝ) → List (List ℝ) × List ℝ)
    (E : List (List ℝ)) (C : List Channel) (G : List (String × List String)) :
    Except String ℝ :=
  weightSweep fitLabels silh pca E C G [0.1, 0.2, 0.3, 0.4, 0.5] (-1, 0.3)

/-! ## `name_clusters` (src/enhanced_clustering.py) -/

/-- The `TOPIC_MAP` taxonomy constant, in source order. -/
def TOPIC_MAP : List (String × List String) :=
  [("Music", ["music", "band", "song", "singer", "rapper", "artist", "piano", "guitar", "drum"]),
   ("Gaming", ["game", "gaming", "playthrough", "minecraft", "fortnite", "gamer", "xbox", "playstation", "nintendo"]),
   ("Technology", ["tech", "technology", "programming", "code", "developer", "computer", "software", "hardware"]),
   ("Science", ["science", "physics", "chemistry", "biology", "astronomy", "space", "experiment"]),
   ("Education", ["education", "learn", "school", "university", "college", "academic", "lecture", "course"]),
   ("Entertainment", ["entertainment", "funny", "comedy", "prank", "skit", "humor"]),
   ("News", ["news", "politics", "current events", "journalist", "report"]),
   ("Sports", ["sports", "football", "basketball", "soccer", "baseball", "nfl", "nba", "fitness"]),
   ("Art", ["art", "drawing", "painting", "animation", "design", "creative"]),
   ("Food", ["food", "cooking", "recipe", "chef", "baking", "cuisine", "restaurant"]),
   ("Fashion", ["fashion", "clothing", "style", "beauty", "makeup", "model"]),
   ("Travel", ["travel", "vlog", "adventure", "tourism", "explore", "destination"]),
   ("Automotive", ["car", "auto", "vehicle", "motorcycle", "racing", "engine"]),
   ("Finance", ["finance", "money", "investing", "stock", "crypto", "bitcoin", "business"]),
   ("DIY", ["diy", "craft", "how to", "tutorial", "woodworking", "maker", "build"]),
   ("Lifestyle", ["lifestyle", "minimalism", "productivity", "self-improvement", "motivation"]),
   ("History", ["history", "historical", "ancient", "medieval", "civilization", "war"])]

/-- Python string interpolation of a possibly-`None` dict value
(`f"{None}"` is `"None"`). -/
def pyRepr : Option String → String
  | some s => s
  | none => "None"

/-- Model of `np.percentile(xs, q)` with the default linear interpolation: sort
ascending and interpolate at fractional rank `(n - 1) * q / 100`. -/
def npPercentile (xs : List ℚ) (q : ℚ) : ℚ :=
  match List.insertionSort (· ≤ ·) xs with
  | [] => 0
  | _ :: _ =>
    let s := List.insertionSort (· ≤ ·) xs
    let hRank : ℚ := ((s.length : ℚ) - 1) * q / 100
    let lo : ℕ := (Int.floor hRank).toNat
    let hi : ℕ := (Int.ceil hRank).toNat
    s.getD lo 0 + (hRank - (lo : ℚ)) * (s.getD hi 0 - s.getD lo 0)

/-- The lower-cased title-plus-description text of one grouped channel:
`f"{ch.get('title', '')} {ch.get('description', '')}".lower()` — the keys are
present in the dicts `create_clusters` builds, so a stored `None` renders as
`"None"`. -/
def groupedChannelText (ch : GroupedChannel) : String :=
  lowerStr (pyRepr ch.title ++ " " ++ pyRepr ch.description)

/-- Model of `" ".join(all_text)` for one cluster. -/
def combinedTextOf (chs : List GroupedChannel) : String :=
  String.intercalate " " (chs.map groupedChannelText)

/-- Model of `all_keywords`: the lower-cased keywords of members that have a
`keywords` key. -/
def allKeywordsOf (chs : List GroupedChannel) : List String :=
  chs.flatMap (fun ch => match ch.keywords with
    | some ks => ks.map lowerStr
    | none => [])

/-- The score of one taxonomy category for a cluster: occurrence count in the
combined text plus twice the exact-match count in the member keyword lists. -/
def categoryScore (combined : String) (kws : List String) (catWords : List String) : ℕ :=
  (catWords.map (fun k => strCount (lowerStr k) combined)).sum +
    (catWords.map (fun k => kws.count (lowerStr k) * 2)).sum

/-- All category scores, in taxonomy order. -/
def categoryScores (combined : String) (kws : List String) : List (String × ℕ) :=
  TOPIC_MAP.map (fun p => (p.1, categoryScore combined kws p.2))

/-- Model of `sorted(category_scores.items(), key=lambda x: x[1], reverse=True)`:
stable descending sort by score. -/
def topCategories (combined : String) (kws : List String) : List (String × ℕ) :=
  List.insertionSort (fun a b => b.2 ≤ a.2) (categoryScores combined kws)

/-- The cluster's average engagement rate:
`np.mean([float(ch.get('engagement_rate', 0)) for ch in cluster_channels])`
if the member list is non-empty, else `0`. -/
def avgEngagement (chs : List GroupedChannel) : ℚ :=
  match chs with
  | [] => 0
  | _ :: _ =>
    let rates := chs.map (fun ch => ch.engagement_rate.getD 0)
    rates.sum / (rates.length : ℚ)

/-- The engagement thresholds: run-wide 75/50/25 percentiles of the collected
engagement rates, or the hard-coded defaults when none were collected.
Order: `(high, medium, low)`. -/
def engagementThresholds (allRates : List ℚ) : ℚ × ℚ × ℚ :=
  match allRates with
  | [] => (1/10, 1/20, 1/100)
  | _ :: _ => (npPercentile allRates 75, npPercentile allRates 50, npPercentile allRates 25)

/-- The name assigned to one cluster: top category (with a secondary category
when its score exceeds 60% of the top score) plus an engagement-level suffix,
or the positional fallback `"Cluster <label>"` when every category scores 0. -/
def clusterNameFor (th : ℚ × ℚ × ℚ) (label : String) (chs : List GroupedChannel) : String :=
  let combined := combinedTextOf chs
  let kws := allKeywordsOf chs
  match topCategories combined kws with
  | [] => "Cluster " ++ label
  | top :: rest =>
    if 0 < top.2 then
      let base :=
        match rest with
        | second :: _ =>
          if (top.2 : ℚ) * (6/10) < (second.2 : ℚ) then top.1 ++ " & " ++ second.1 else top.1
        | [] => top.1
      let avg := avgEngagement chs
      if th.1 ≤ avg then base ++ " (High Engagement)"
      else if th.2.1 ≤ avg then base ++ " (Medium Engagement)"
      else base ++ " (Low Engagement)"
    else "Cluster " ++ label

/-- The metadata dict recorded for one cluster. -/
def clusterMetaFor (th : ℚ × ℚ × ℚ) (chs : List GroupedChannel) : ClusterMeta :=
  let combined := combinedTextOf chs
  let kws := allKeywordsOf chs
  let avg := avgEngagement chs
  { avg_engagement := avg
    size := chs.length
    top_categories := ((topCategories combined kws).take 3).map Prod.fst
    engagement_level :=
      if th.1 ≤ avg then "High" else if th.2.1 ≤ avg then "Medium" else "Low" }

/-- Assignment into a string-keyed dict: replace the value in place if the key
exists, else append the key. -/
def assocSet : List (String × β) → String → β → List (String × β)
  | [], k, v => [(k, v)]
  | (k', v') :: rest, k, v =>
    if k' = k then (k, v) :: rest else (k', v') :: assocSet rest k v

/-- First-match lookup in a string-keyed association list. -/
def assocGet : List (String × β) → String → Option β
  | [], _ => none
  | (k', v') :: rest, k => if k' = k then some v' else assocGet rest k

/-- Model of `name_clusters(clusters, channels)` (the `channels` argument is unused by
the source).  Returns the input untouched when there is no `'channels'`
grouping; otherwise computes the run-wide engagement thresholds and then names
each cluster and records its metadata, in group order. -/
def nameClusters (clusters : Clusters) : Clusters :=
  match clusters.channels with
  | none => clusters
  | some groups =>
    let allRates := groups.flatMap (fun g => g.2.filterMap (fun ch => ch.engagement_rate))
    let th := engagementThresholds allRates
    groups.foldl
      (fun c g =>
        { c with
          cluster_names := assocSet c.cluster_names g.1 (clusterNameFor th g.1 g.2)
          cluster_metadata := assocSet c.cluster_metadata g.1 (clusterMetaFor th g.2) })
      clusters

/-! ## Concrete fixtures for witnesses and counterexamples -/

/-- A minimal channel record carrying only an id: every other key absent and
every engagement metric defaulting to `0`. -/
def testChannel (s : String) : Channel :=
  { channel_id := some s, title := none, description := none,
    subscriber_count := none, video_count := none, view_count := none,
    avg_views_per_video := none, avg_likes_per_video := none,
    avg_comments_per_video := none, engagement_rate := none }

/-- A minimal grouped-channel member dict (titles and descriptions empty,
no engagement or keyword keys) whose combined text matches no taxonomy
keyword. -/
def testGroupedChannel : GroupedChannel :=
  { channel_id := none, title := some "", description := some "",
    subscriber_count := none, video_count := none, x := 0, y := 0,
    engagement_rate := none, keywords := none }

/-- A cluster result with no per-group channel listing. -/
def testClustersNoChannels : Clusters :=
  { algorithm := "kmeans", n_clusters := 2, silhouette_score := none,
    labels := [0, 1], reduced_data := none, explained_variance := none,
    channels := none, cluster_names := [], cluster_metadata := [] }

/-- A cluster result holding a single group labelled `"5"` whose only member
is `testGroupedChannel`. -/
def testClustersOneGroup : Clusters :=
  { algorithm := "kmeans", n_clusters := 1, silhouette_score := none,
    labels := [5], reduced_data := none, explained_variance := none,
    channels := some [("5", [testGroupedChannel])],
    cluster_names := [], cluster_metadata := [] }

/-! ## Lemmas about the id→index map -/

lemma mem_idIndexPairs_ge {C : List Channel} {n : ℕ} {p : String × ℕ}
    (h : p ∈ idIndexPairs C n) : n ≤ p.2 := by
  induction C generalizing n with
  | nil => simp [idIndexPairs] at h
  | cons ch rest ih =>
    rcases hid : ch.channel_id with _ | s
    · simp only [idIndexPairs, hid] at h
      exact le_trans (Nat.le_succ n) (ih h)
    · simp only [idIndexPairs, hid] at h
      by_cases hs : s = ""
      · rw [if_pos hs] at h
        exact le_trans (Nat.le_succ n) (ih h)
      · rw [if_neg hs] at h
        rcases List.mem_cons.mp h with h' | h'
        · simp [h']
        · exact le_trans (Nat.le_succ n) (ih h')

lemma mem_idIndexPairs_lt {C : List Channel} {n : ℕ} {p : String × ℕ}
    (h : p ∈ idIndexPairs C n) : p.2 < n + C.length := by
  induction C generalizing n with
  | nil => simp [idIndexPairs] at h
  | cons ch rest ih =>
    have step : p ∈ idIndexPairs rest (n + 1) → p.2 < n + (ch :: rest).length := by
      intro h'
      have := ih h'
      simp only [List.length_cons]
      omega
    rcases hid : ch.channel_id with _ | s
    · simp only [idIndexPairs, hid] at h; exact step h
    · simp only [idIndexPairs, hid] at h
      by_cases hs : s = ""
      · rw [if_pos hs] at h; exact step h
      · rw [if_neg hs] at h
        rcases List.mem_cons.mp h with h' | h'
        · simp [h']
        · exact step h'

/-- The second component of an id/index pair determines the first: each list
position contributes at most one pair. -/
lemma idIndexPairs_functional {C : List Channel} {n : ℕ} {s₁ s₂ : String} {i : ℕ}
    (h₁ : (s₁, i) ∈ idIndexPairs C n) (h₂ : (s₂, i) ∈ idIndexPairs C n) : s₁ = s₂ := by
  induction C generalizing n with
  | nil => simp [idIndexPairs] at h₁
  | cons ch rest ih =>
    rcases hid : ch.channel_id with _ | s
    · simp only [idIndexPairs, hid] at h₁ h₂; exact ih h₁ h₂
    · simp only [idIndexPairs, hid] at h₁ h₂
      by_cases hs : s = ""
      · rw [if_pos hs] at h₁ h₂; exact ih h₁ h₂
      · rw [if_neg hs] at h₁ h₂
        rcases List.mem_cons.mp h₁ with h₁' | h₁' <;>
          rcases List.mem_cons.mp h₂ with h₂' | h₂'
        · exact ((Prod.ext_iff.mp h₁').1).trans ((Prod.ext_iff.mp h₂').1).symm
        · exfalso
          have hge : n + 1 ≤ i := mem_idIndexPairs_ge h₂'
          have hi : i = n := (Prod.ext_iff.mp h₁').2
          omega
        · exfalso
          have hge : n + 1 ≤ i := mem_idIndexPairs_ge h₁'
          have hi : i = n := (Prod.ext_iff.mp h₂').2
          omega
        · exact ih h₁' h₂'

lemma of_getLast?_eq_some {l : List α} {x : α} (h : l.getLast? = some x) : x ∈ l := by
  have hx : x ∈ l.getLast? := by rw [h]; rfl
  obtain ⟨hne, rfl⟩ := List.mem_getLast?_eq_getLast hx
  exact List.getLast_mem hne

lemma channelIdToIndex_mem {C : List Channel} {cid : String} {i : ℕ}
    (h : channelIdToIndex C cid = some i) : (cid, i) ∈ idIndexPairs C 0 := by
  unfold channelIdToIndex at h
  rcases hlast : ((idIndexPairs C 0).filter (fun p => p.1 = cid)).getLast? with _ | p
  · rw [hlast] at h; simp at h
  · rw [hlast] at h
    simp only [Option.map_some'] at h
    have hmem := of_getLast?_eq_some hlast
    have hfilter := List.mem_filter.mp hmem
    have hcid : p.1 = cid := by
      have := hfilter.2
      simpa using this
    have : p = (cid, i) := by
      rcases p with ⟨a, b⟩
      simp only at hcid
      simp only [Option.some.injEq] at h
      simp [hcid, h]
    rw [this] at hfilter
    exact hfilter.1

lemma channelIdToIndex_lt {C : List Channel} {cid : String} {i : ℕ}
    (h : channelIdToIndex C cid = some i) : i < C.length := by
  have := mem_idIndexPairs_lt (channelIdToIndex_mem h)
  simpa using this

/-- Distinct channel ids resolve to distinct indices. -/
lemma channelIdToIndex_inj {C : List Channel} {c₁ c₂ : String} {i : ℕ}
    (h₁ : channelIdToIndex C c₁ = some i) (h₂ : channelIdToIndex C c₂ = some i) :
    c₁ = c₂ :=
  idIndexPairs_functional (channelIdToIndex_mem h₁) (channelIdToIndex_mem h₂)

/-! ## Lemmas about the enhancer's in-place loop -/

lemma getD_set_self {l : List α} {i : ℕ} {v d : α} (h : i < l.length) :
    (l.set i v).getD i d = v := by
  simp [List.getD, List.getElem?_set_self', h]

lemma getD_set_ne {l : List α} {i j : ℕ} {v d : α} (h : j ≠ i) :
    (l.set j v).getD i d = l.getD i d := by
  simp [List.getD, List.getElem?_set_ne h]

lemma enhanceStep_length (E : List (List ℝ)) (C : List Channel) (w : ℝ)
    (acc : List (List ℝ)) (e : String × List String) :
    (enhanceStep E C w acc e).length = acc.length := by
  unfold enhanceStep
  rcases channelIdToIndex C e.1 with _ | i
  · rfl
  · simp only
    split
    · rfl
    · simp

lemma enhance_foldl_length (E : List (List ℝ)) (C : List Channel) (w : ℝ)
    (G : List (String × List String)) (acc : List (List ℝ)) :
    (G.foldl (enhanceStep E C w) acc).length = acc.length := by
  induction G generalizing acc with
  | nil => rfl
  | cons e rest ih =>
    rw [List.foldl_cons, ih, enhanceStep_length]

/-- Rows the graph never writes are carried through the whole loop untouched
(no distinct-key assumption needed). -/
lemma enhance_foldl_getD_of_not_written (E : List (List ℝ)) (C : List Channel) (w : ℝ)
    {G : List (String × List String)} {i : ℕ}
    (hno : ∀ p ∈ G, channelIdToIndex C p.1 = some i →
      p.2.filterMap (channelIdToIndex C) = []) :
    ∀ acc, (G.foldl (enhanceStep E C w) acc).getD i [] = acc.getD i [] := by
  induction G with
  | nil => intro acc; rfl
  | cons e rest ih =>
    intro acc
    rw [List.foldl_cons]
    rw [ih (fun p hp => hno p (List.mem_cons_of_mem e hp))]
    unfold enhanceStep
    rcases hidx : channelIdToIndex C e.1 with _ | j
    · rfl
    · simp only
      split
      · rfl
      · rename_i htne
        have hji : j ≠ i := by
          intro hji
          exact htne (hno e (List.mem_cons_self e rest) (hji ▸ hidx))
        exact getD_set_ne hji

/-- If `writesTo` finds targets for row `i`, some graph entry is responsible. -/
lemma writesTo_eq_some_elim {C : List Channel} {G : List (String × List String)}
    {i : ℕ} {ts : List ℕ} (h : writesTo C G i = some ts) :
    ∃ p ∈ G, channelIdToIndex C p.1 = some i ∧
      p.2.filterMap (channelIdToIndex C) = ts ∧ ts ≠ [] := by
  induction G with
  | nil => simp [writesTo] at h
  | cons e rest ih =>
    rcases e with ⟨cid, subs⟩
    rcases hidx : channelIdToIndex C cid with _ | j
    · simp only [writesTo, hidx] at h
      obtain ⟨p, hp, hrest⟩ := ih h
      exact ⟨p, List.mem_cons_of_mem _ hp, hrest⟩
    · simp only [writesTo, hidx] at h
      by_cases hcond : j = i ∧ subs.filterMap (channelIdToIndex C) ≠ []
      · rw [if_pos hcond] at h
        have hts : List.filterMap (channelIdToIndex C) subs = ts := Option.some.inj h
        refine ⟨(cid, subs), List.mem_cons_self _ _, ?_, hts, ?_⟩
        · rw [hidx, hcond.1]
        · rw [← hts]; exact hcond.2
      · rw [if_neg hcond] at h
        obtain ⟨p, hp, hrest⟩ := ih h
        exact ⟨p, List.mem_cons_of_mem _ hp, hrest⟩

/-- Central characterization of the enhancer loop: with distinct graph keys
(guaranteed by the Python dict) and an embedding matrix aligned with the
channel list, row `i` after the whole fold is the blend of the unique entry
writing `i` — computed from the *original* matrix `E` — or the accumulator's
row when no entry writes `i`. -/
lemma enhance_foldl_getD (E : List (List ℝ)) (C : List Channel) (w : ℝ) :
    ∀ (G : List (String × List String)) (acc : List (List ℝ)),
      acc.length = C.length → (G.map Prod.fst).Nodup → ∀ i,
      (G.foldl (enhanceStep E C w) acc).getD i [] =
        match writesTo C G i with
        | some ts => blendRow w (E.getD i [])
            (vecMean (ts.map (fun j => E.getD j [])))
            (vecMean (ts.map (fun j => (engagementEmbeddings E C).getD j [])))
        | none => acc.getD i [] := by
  intro G
  induction G with
  | nil =>
    intro acc _ _ i
    rfl
  | cons e rest ih =>
    intro acc hlen hnodup i
    rcases e with ⟨cid, subs⟩
    have hnodup' : (rest.map Prod.fst).Nodup := (List.nodup_cons.mp hnodup).2
    have hcid_notin : cid ∉ rest.map Prod.fst := (List.nodup_cons.mp hnodup).1
    rw [List.foldl_cons]
    rcases hidx : channelIdToIndex C cid with _ | j
    · have hstep : enhanceStep E C w acc (cid, subs) = acc := by
        unfold enhanceStep; rw [hidx]
      rw [hstep, ih acc hlen hnodup' i]
      simp only [writesTo, hidx]
    · rcases ht : subs.filterMap (channelIdToIndex C) with _ | ⟨t0, trest⟩
      · have hstep : enhanceStep E C w acc (cid, subs) = acc := by
          unfold enhanceStep; rw [hidx]
          simp [ht]
        rw [hstep, ih acc hlen hnodup' i]
        simp only [writesTo, hidx, ht]
        rw [if_neg (by simp)]
      · have htne : subs.filterMap (channelIdToIndex C) ≠ [] := by rw [ht]; simp
        have hstep : enhanceStep E C w acc (cid, subs) =
            acc.set j (blendRow w (E.getD j [])
              (vecMean ((subs.filterMap (channelIdToIndex C)).map (fun k => E.getD k [])))
              (vecMean ((subs.filterMap (channelIdToIndex C)).map
                (fun k => (engagementEmbeddings E C).getD k [])))) := by
          unfold enhanceStep; rw [hidx]
          simp only [ht]
          rw [if_neg (by simp)]
        have hlen₂ : (enhanceStep E C w acc (cid, subs)).length = C.length := by
          rw [enhanceStep_length]; exact hlen
        rw [ih _ hlen₂ hnodup' i]
        rcases hrest : writesTo C rest i with _ | ts
        · -- no later entry writes `i`; this entry decides the row
          simp only
          by_cases hji : j = i
          · have hi_lt : i < acc.length := by
              rw [hlen]; exact hji ▸ channelIdToIndex_lt hidx
            rw [hstep, hji, getD_set_self hi_lt]
            simp only [writesTo, hidx, ht]
            rw [if_pos ⟨hji, by simp⟩]
          · rw [hstep, getD_set_ne hji]
            simp only [writesTo, hidx, ht]
            rw [if_neg (by intro hc; exact hji hc.1), hrest]
        · -- a later entry writes `i`: under distinct keys this entry cannot
          simp only
          have hji : j ≠ i := by
            intro hji
            obtain ⟨p, hp, hpidx, -, -⟩ := writesTo_eq_some_elim hrest
            have : p.1 = cid := channelIdToIndex_inj hpidx (hji ▸ hidx)
            exact hcid_notin (this ▸ List.mem_map_of_mem Prod.fst hp)
          simp only [writesTo, hidx, ht]
          rw [if_neg (by intro hc; exact hji hc.1), hrest]

/-! ## Vector arithmetic lemmas -/

lemma vAdd_length (v u : List ℝ) : (vAdd v u).length = min v.length u.length := by
  simp [vAdd]

lemma smul_length (c : ℝ) (v : List ℝ) : (smul c v).length = v.length := by
  simp [smul]

lemma smul_one_eq (v : List ℝ) : smul 1 v = v := by
  simp [smul]

lemma vAdd_smul_zero_right {v u : List ℝ} (h : v.length ≤ u.length) :
    vAdd v (smul 0 u) = v := by
  induction v generalizing u with
  | nil => rfl
  | cons a v' ih =>
    cases u with
    | nil => simp at h
    | cons b u' =>
      simp only [smul, List.map_cons, vAdd, List.zipWith_cons_cons, zero_mul, add_zero]
      have : vAdd v' (smul 0 u') = v' := ih (Nat.succ_le_succ_iff.mp h)
      simpa [vAdd, smul] using this

lemma foldl_vAdd_length {d : ℕ} :
    ∀ (rest : List (List ℝ)) (v : List ℝ), v.length = d → (∀ u ∈ rest, u.length = d) →
      (rest.foldl vAdd v).length = d := by
  intro rest
  induction rest with
  | nil => intro v hv _; exact hv
  | cons u rest' ih =>
    intro v hv hall
    rw [List.foldl_cons]
    refine ih _ ?_ (fun x hx => hall x (List.mem_cons_of_mem _ hx))
    rw [vAdd_length, hv, hall u (List.mem_cons_self _ _)]
    simp

lemma vecMean_length {d : ℕ} {vs : List (List ℝ)} (hne : vs ≠ [])
    (h : ∀ v ∈ vs, v.length = d) : (vecMean vs).length = d := by
  cases vs with
  | nil => exact absurd rfl hne
  | cons v rest =>
    rw [vecMean, smul_length]
    exact foldl_vAdd_length rest v (h v (List.mem_cons_self _ _))
      (fun u hu => h u (List.mem_cons_of_mem _ hu))

lemma blendRow_zero {orig a b : List ℝ} (ha : orig.length ≤ a.length)
    (hb : orig.length ≤ b.length) : blendRow 0 orig a b = orig := by
  unfold blendRow
  rw [show (1 : ℝ) - 0 = 1 by norm_num, show (0 : ℝ) * 0.7 = 0 by norm_num,
    show (0 : ℝ) * 0.3 = 0 by norm_num, smul_one_eq,
    vAdd_smul_zero_right ha, vAdd_smul_zero_right hb]

/-! ## C7 / C8 / C1: theorems about the Relationship Enhancer -/

/-- C7:  A channel with no resolvable outbound edge in the subscription
graph — in particular every channel when the graph is empty — keeps its feature
vector exactly, for any weight in `[0, 1]` (the bound is not even needed). -/
theorem enhance_leaves_edgeless_rows_unchanged
    (E : List (List ℝ)) (C : List Channel) (G : List (String × List String))
    (w : ℝ) (_hw : 0 ≤ w ∧ w ≤ 1) (i : ℕ)
    (hno : ∀ p ∈ G, channelIdToIndex C p.1 = some i →
      p.2.filterMap (channelIdToIndex C) = []) :
    (enhance E C G w).getD i [] = E.getD i [] := by
  unfold enhance
  exact enhance_foldl_getD_of_not_written E C w hno E

/-- Witness for C7 at a concrete input: a two-channel run whose graph has an
entry for channel `"a"` with only unresolvable targets, and none for `"b"`. -/
theorem enhance_leaves_edgeless_rows_unchanged_witness :
    (enhance [[(1 : ℝ)], [2]] [testChannel "a", testChannel "b"]
      [("a", ["zzz"])] (1/2)).getD 1 [] = [[(1 : ℝ)], [2]].getD 1 [] := by
  refine enhance_leaves_edgeless_rows_unchanged _ _ _ _ ⟨by norm_num, by norm_num⟩ 1 ?_
  intro p hp hidx
  simp only [List.mem_singleton] at hp
  subst hp
  exfalso
  revert hidx
  simp [channelIdToIndex, idIndexPairs, testChannel]

/-- C8:  Order-independence of the enhancer: with distinct graph keys (a
Python dict) and an embedding matrix aligned with the channel list, the loop's
result equals a simultaneous pure map over all row indices, each output row
(`enhancedRowPure`) being a function of the *original* matrix only — target
means are never taken from partially-updated rows. -/
theorem enhance_eq_simultaneous_map
    (E : List (List ℝ)) (C : List Channel) (G : List (String × List String)) (w : ℝ)
    (hlen : E.length = C.length) (hnodup : (G.map Prod.fst).Nodup) :
    enhance E C G w = (List.range E.length).map (enhancedRowPure E C G w) := by
  have hlen' : (enhance E C G w).length = E.length := enhance_foldl_length E C w G E
  apply List.ext_getElem
  · simp [hlen']
  · intro i h₁ h₂
    have hi : i < E.length := by simpa [hlen'] using h₁
    have hgetD : (enhance E C G w).getD i [] = enhancedRowPure E C G w i := by
      rw [enhancedRowPure]
      have := enhance_foldl_getD E C w G E hlen hnodup i
      unfold enhance
      rcases hw : writesTo C G i with _ | ts
      · rw [hw] at this; exact this
      · rw [hw] at this; exact this
    rw [List.getElem_map, List.getElem_range]
    have h3 : (enhance E C G w)[i] = (enhance E C G w).getD i [] := by
      rw [List.getD_eq_getElem?_getD, List.getElem?_eq_getElem h₁]; rfl
    rw [h3, hgetD]

/-- Witness for C8 at a concrete input: two channels, a one-edge graph. -/
theorem enhance_eq_simultaneous_map_witness :
    enhance [[(1 : ℝ)], [3]] [testChannel "a", testChannel "b"] [("a", ["b"])] (3/10) =
      (List.range 2).map (enhancedRowPure [[(1 : ℝ)], [3]]
        [testChannel "a", testChannel "b"] [("a", ["b"])] (3/10)) :=
  enhance_eq_simultaneous_map _ _ _ _ (by simp) (by simp)

lemma vAdd_smul_zero_left {v u : List ℝ} (h : u.length ≤ v.length) :
    vAdd (smul 0 v) u = u := by
  induction u generalizing v with
  | nil => simp [vAdd]
  | cons b u' ih =>
    cases v with
    | nil => simp at h
    | cons a v' =>
      simp only [smul, List.map_cons, vAdd, List.zipWith_cons_cons, zero_mul, zero_add]
      have : vAdd (smul 0 v') u' = u' := ih (Nat.succ_le_succ_iff.mp h)
      simpa [vAdd, smul] using this

lemma blendRow_one {orig a : List ℝ} (b : List ℝ) (ha : a.length ≤ orig.length) :
    blendRow 1 orig a b = vAdd (smul (0.7 : ℝ) a) (smul (0.3 : ℝ) b) := by
  unfold blendRow
  rw [show (1 : ℝ) - 1 = 0 by norm_num, show (1 : ℝ) * 0.7 = 0.7 by norm_num,
    show (1 : ℝ) * 0.3 = 0.3 by norm_num, vAdd_smul_zero_left (by rw [smul_length]; exact ha)]

lemma getD_row_length {E : List (List ℝ)} {d i : ℕ}
    (hrect : ∀ v ∈ E, v.length = d) (hi : i < E.length) : (E.getD i []).length = d := by
  rw [List.getD_eq_getElem?_getD, List.getElem?_eq_getElem hi]
  exact hrect _ (List.getElem_mem hi)

lemma engagementWeights_length (C : List Channel) :
    (engagementWeights C).length = C.length := by
  simp [engagementWeights, normalizeEngagement]

lemma engagementEmbeddings_length {E : List (List ℝ)} {C : List Channel}
    (h : E.length = C.length) : (engagementEmbeddings E C).length = E.length := by
  simp [engagementEmbeddings, engagementWeights_length, h]

lemma engagementEmbeddings_row_length {E : List (List ℝ)} {C : List Channel} {d j : ℕ}
    (hlen : E.length = C.length) (hrect : ∀ v ∈ E, v.length = d) (hj : j < E.length) :
    ((engagementEmbeddings E C).getD j []).length = d := by
  have hj' : j < (engagementEmbeddings E C).length := by
    rw [engagementEmbeddings_length hlen]; exact hj
  rw [List.getD_eq_getElem?_getD, List.getElem?_eq_getElem hj']
  have hw : j < (engagementWeights C).length := by
    rw [engagementWeights_length]; omega
  simp only [engagementEmbeddings, List.getElem_zipWith, Option.getD_some, List.length_map]
  exact hrect _ (List.getElem_mem hj)

/-- Under distinct graph keys, a graph entry that resolves to row `i` with a
non-empty resolvable target list is *the* entry `writesTo` finds. -/
lemma writesTo_eq_of_mem {C : List Channel} {G : List (String × List String)}
    {cid : String} {subs : List String} {i : ℕ}
    (hnodup : (G.map Prod.fst).Nodup) (hmem : (cid, subs) ∈ G)
    (hidx : channelIdToIndex C cid = some i)
    (hne : subs.filterMap (channelIdToIndex C) ≠ []) :
    writesTo C G i = some (subs.filterMap (channelIdToIndex C)) := by
  induction G with
  | nil => simp at hmem
  | cons e rest ih =>
    rcases e with ⟨c', s'⟩
    have hnodup' : (rest.map Prod.fst).Nodup := (List.nodup_cons.mp hnodup).2
    rcases List.mem_cons.mp hmem with hhead | htail
    · injection hhead with h1 h2
      subst h1; subst h2
      simp only [writesTo, hidx]
      rw [if_pos ⟨trivial, hne⟩]
    · have hcid_in : cid ∈ rest.map Prod.fst := List.mem_map_of_mem Prod.fst htail
      have hc'ne : c' ≠ cid := by
        intro heq
        exact (List.nodup_cons.mp hnodup).1 (heq ▸ hcid_in)
      rcases hidx' : channelIdToIndex C c' with _ | j
      · simp only [writesTo, hidx']
        exact ih hnodup' htail
      · have hji : j ≠ i := by
          intro hji
          exact hc'ne (channelIdToIndex_inj hidx' (hji ▸ hidx))
        simp only [writesTo, hidx']
        rw [if_neg (by intro hc; exact hji hc.1)]
        exact ih hnodup' htail

lemma writesTo_targets_bound {C : List Channel} {G : List (String × List String)}
    {i : ℕ} {ts : List ℕ} (h : writesTo C G i = some ts) :
    ∀ j ∈ ts, j < C.length := by
  obtain ⟨p, -, -, hts, -⟩ := writesTo_eq_some_elim h
  intro j hj
  rw [← hts] at hj
  obtain ⟨s, -, hs⟩ := List.mem_filterMap.mp hj
  exact channelIdToIndex_lt hs

lemma target_mean_length {E : List (List ℝ)} {d : ℕ} {ts : List ℕ}
    (hrect : ∀ v ∈ E, v.length = d) (hts : ts ≠ []) (hbound : ∀ j ∈ ts, j < E.length) :
    (vecMean (ts.map (fun j => E.getD j []))).length = d := by
  refine vecMean_length (by simpa using hts) ?_
  intro v hv
  obtain ⟨j, hj, rfl⟩ := List.mem_map.mp hv
  exact getD_row_length hrect (hbound j hj)

lemma target_engagement_mean_length {E : List (List ℝ)} {C : List Channel} {d : ℕ}
    {ts : List ℕ} (hlen : E.length = C.length) (hrect : ∀ v ∈ E, v.length = d)
    (hts : ts ≠ []) (hbound : ∀ j ∈ ts, j < E.length) :
    (vecMean (ts.map (fun j => (engagementEmbeddings E C).getD j []))).length = d := by
  refine vecMean_length (by simpa using hts) ?_
  intro v hv
  obtain ⟨j, hj, rfl⟩ := List.mem_map.mp hv
  exact engagementEmbeddings_row_length hlen hrect (hbound j hj)

/-- C1 (amended):  With weight `0.0` the enhancer returns the input matrix
exactly.  With weight `1.0` the row of a channel with at least one resolvable
outbound edge is replaced by `0.7 ×` the mean of its resolvable targets'
original feature vectors `+ 0.3 ×` the mean of the targets'
engagement-scaled vectors — not by the targets' mean alone. -/
theorem enhance_weight_boundary
    (E : List (List ℝ)) (C : List Channel) (G : List (String × List String)) (d : ℕ)
    (hlen : E.length = C.length) (hrect : ∀ v ∈ E, v.length = d)
    (hnodup : (G.map Prod.fst).Nodup) :
    enhance E C G 0 = E ∧
    (∀ cid subs i, (cid, subs) ∈ G → channelIdToIndex C cid = some i →
      subs.filterMap (channelIdToIndex C) ≠ [] →
      (enhance E C G 1).getD i [] =
        vAdd (smul (0.7 : ℝ) (vecMean ((subs.filterMap (channelIdToIndex C)).map
                (fun j => E.getD j []))))
             (smul (0.3 : ℝ) (vecMean ((subs.filterMap (channelIdToIndex C)).map
                (fun j => (engagementEmbeddings E C).getD j []))))) := by
  constructor
  · -- weight 0.0: every written row is rewritten with its own original value
    have hrow : ∀ i, (enhance E C G 0).getD i [] = E.getD i [] := by
      intro i
      have key := enhance_foldl_getD E C 0 G E hlen hnodup i
      rw [enhance]
      rcases hw : writesTo C G i with _ | ts
      · rw [hw] at key; exact key
      · rw [hw] at key
        rw [key]
        have hts : ts ≠ [] := by
          obtain ⟨p, -, -, -, h⟩ := writesTo_eq_some_elim hw; exact h
        have hbound : ∀ j ∈ ts, j < E.length := by
          intro j hj
          rw [hlen]; exact writesTo_targets_bound hw j hj
        have hi : i < E.length := by
          obtain ⟨p, -, hpidx, -, -⟩ := writesTo_eq_some_elim hw
          rw [hlen]; exact channelIdToIndex_lt hpidx
        have horig : (E.getD i []).length = d := getD_row_length hrect hi
        refine blendRow_zero ?_ ?_
        · rw [target_mean_length hrect hts hbound, horig]
        · rw [target_engagement_mean_length hlen hrect hts hbound, horig]
    have hlenE : (enhance E C G 0).length = E.length := enhance_foldl_length E C 0 G E
    apply List.ext_getElem (by rw [hlenE])
    intro i h₁ h₂
    have h3 : (enhance E C G 0)[i] = (enhance E C G 0).getD i [] := by
      rw [List.getD_eq_getElem?_getD, List.getElem?_eq_getElem h₁]; rfl
    have h4 : E[i] = E.getD i [] := by
      rw [List.getD_eq_getElem?_getD, List.getElem?_eq_getElem h₂]; rfl
    rw [h3, h4, hrow i]
  · -- weight 1.0: the i-th row is fully replaced by the 0.7/0.3 blend
    intro cid subs i hmem hidx hne
    have hw := writesTo_eq_of_mem hnodup hmem hidx hne
    have key := enhance_foldl_getD E C 1 G E hlen hnodup i
    rw [hw] at key
    rw [enhance, key]
    have hi : i < E.length := by rw [hlen]; exact channelIdToIndex_lt hidx
    have hbound : ∀ j ∈ subs.filterMap (channelIdToIndex C), j < E.length := by
      intro j hj
      rw [hlen]; exact writesTo_targets_bound hw j hj
    refine blendRow_one _ ?_
    rw [target_mean_length hrect hne hbound, getD_row_length hrect hi]

/-- Witness for C1's amended statement at a concrete input. -/
theorem enhance_weight_boundary_witness :
    enhance [[(1 : ℝ)], [3]] [testChannel "a", testChannel "b"] [("a", ["b"])] 0 =
        [[(1 : ℝ)], [3]] ∧
    (∀ cid subs i, (cid, subs) ∈ [("a", ["b"])] →
      channelIdToIndex [testChannel "a", testChannel "b"] cid = some i →
      subs.filterMap (channelIdToIndex [testChannel "a", testChannel "b"]) ≠ [] →
      (enhance [[(1 : ℝ)], [3]] [testChannel "a", testChannel "b"] [("a", ["b"])] 1).getD i [] =
        vAdd (smul (0.7 : ℝ) (vecMean
            ((subs.filterMap (channelIdToIndex [testChannel "a", testChannel "b"])).map
              (fun j => [[(1 : ℝ)], [3]].getD j []))))
             (smul (0.3 : ℝ) (vecMean
            ((subs.filterMap (channelIdToIndex [testChannel "a", testChannel "b"])).map
              (fun j => (engagementEmbeddings [[(1 : ℝ)], [3]]
                [testChannel "a", testChannel "b"]).getD j []))))) :=
  enhance_weight_boundary [[(1 : ℝ)], [3]] [testChannel "a", testChannel "b"]
    [("a", ["b"])] 1 (by simp) (by simp) (by simp)

lemma colMean_pair_same (x : ℝ) : colMean [x, x] = x := by
  simp [colMean]

lemma npStd_pair_same (x : ℝ) : npStd [x, x] = 0 := by
  rw [npStd]
  rw [show (([x, x].map (fun y => (y - colMean [x, x]) ^ 2)).sum /
      (([x, x].length : ℕ) : ℝ)) = 0 by rw [colMean_pair_same]; simp]
  exact Real.sqrt_zero

lemma testChannel_idx_a :
    channelIdToIndex [testChannel "a", testChannel "b"] "a" = some 0 := by
  simp [channelIdToIndex, idIndexPairs, testChannel]

lemma testChannel_idx_b :
    channelIdToIndex [testChannel "a", testChannel "b"] "b" = some 1 := by
  simp [channelIdToIndex, idIndexPairs, testChannel]

lemma normalizeEngagement_test :
    normalizeEngagement [testChannel "a", testChannel "b"] = [[0, 0, 0, 0], [0, 0, 0, 0]] := by
  simp [normalizeEngagement, engagementRow, engagementRowQ, testChannel, column,
    List.range_succ, npStd_pair_same, colMean_pair_same]

lemma engagementEmbeddings_test :
    engagementEmbeddings [[(1 : ℝ)], [3]] [testChannel "a", testChannel "b"] = [[0], [0]] := by
  simp [engagementEmbeddings, engagementWeights, normalizeEngagement_test]

/-- C1, counterexample:  At weight `1.0` the code does *not* replace the
enhanced row with the mean of its targets' original feature vectors: with
embeddings `[[1], [3]]` and the single edge `a → b`, the targets' mean row is
`[3]` but the enhancer writes `[2.1] = 0.7·[3] + 0.3·[0]`. -/
theorem enhance_weight_one_counterexample :
    enhance [[(1 : ℝ)], [3]] [testChannel "a", testChannel "b"] [("a", ["b"])] 1 =
        [[(21 / 10 : ℝ)], [3]] ∧
    vecMean ((["b"].filterMap (channelIdToIndex [testChannel "a", testChannel "b"])).map
        (fun j => [[(1 : ℝ)], [3]].getD j [])) = [(3 : ℝ)] ∧
    (21 / 10 : ℝ) ≠ 3 := by
  refine ⟨?_, ?_, by norm_num⟩
  · rw [enhance]
    simp only [List.foldl_cons, List.foldl_nil, enhanceStep, testChannel_idx_a,
      List.filterMap, testChannel_idx_b]
    norm_num [blendRow, vecMean, vAdd, smul, engagementEmbeddings_test]
  · simp only [List.filterMap, testChannel_idx_b]
    norm_num [vecMean, smul]

/-! ## C5 / C2: theorems about `vectorize_channels` -/

lemma toBatches_ne_nil {l : List α} (h : l ≠ []) : toBatches l ≠ [] := by
  cases l with
  | nil => exact absurd rfl h
  | cons x xs => rw [toBatches]; simp

/-- Stacking the per-batch encodings recovers the elementwise encoding of the
whole input list: batching does not reorder, drop or duplicate rows. -/
lemma toBatches_map_flatten (f : α → β) (l : List α) :
    ((toBatches l).map (fun b => b.map f)).flatten = l.map f := by
  have H : ∀ (n : ℕ) (l : List α), l.length ≤ n →
      ((toBatches l).map (fun b => b.map f)).flatten = l.map f := by
    intro n
    induction n with
    | zero =>
      intro l hl
      have : l = [] := List.length_eq_zero.mp (Nat.le_zero.mp hl)
      subst this
      simp [toBatches]
    | succ n ih =>
      intro l hl
      cases l with
      | nil => simp [toBatches]
      | cons x xs =>
        rw [toBatches]
        simp only [List.map_cons, List.flatten_cons]
        rw [ih _ (by simp only [List.length_drop, List.length_cons] at hl ⊢; omega)]
        rw [← List.map_append, List.take_append_drop, List.map_cons]
  exact H l.length l le_rfl

lemma zipWith_map_same (f : β → γ → δ) (g : α → β) (h : α → γ) (l : List α) :
    List.zipWith f (l.map g) (l.map h) = l.map (fun x => f (g x) (h x)) := by
  induction l with
  | nil => rfl
  | cons a l ih => simp only [List.map_cons, List.zipWith_cons_cons, ih]

/-- C5 (amended):  For every *non-empty* channel list the vectorizer
succeeds and its matrix has one row per input record, row `i` being the
feature vector of record `i` (order preserved regardless of the 32-element
batching).  (On the empty list `np.vstack([])` raises instead — see the
counterexample.) -/
theorem vectorize_rows_aligned (encode : String → List ℝ) (channels : List Channel)
    (hne : channels ≠ []) :
    vectorizeChannels encode channels =
        some (channels.map (vectorizedRow encode channels)) ∧
    (channels.map (vectorizedRow encode channels)).length = channels.length := by
  refine ⟨?_, by simp⟩
  unfold vectorizeChannels
  have htexts : channels.map channelText ≠ [] := by simpa using hne
  rw [if_neg (by
    intro hmap
    exact toBatches_ne_nil htexts (List.map_eq_nil_iff.mp hmap))]
  simp only [toBatches_map_flatten, List.map_map]
  rw [zipWith_map_same]
  rfl

/-- Witness for C5's amended statement at a concrete one-channel input. -/
theorem vectorize_rows_aligned_witness :
    vectorizeChannels (fun _ => [(0 : ℝ)]) [testChannel "a"] =
        some ([testChannel "a"].map
          (vectorizedRow (fun _ => [(0 : ℝ)]) [testChannel "a"])) ∧
    ([testChannel "a"].map
        (vectorizedRow (fun _ => [(0 : ℝ)]) [testChannel "a"])).length =
      [testChannel "a"].length :=
  vectorize_rows_aligned (fun _ => [(0 : ℝ)]) [testChannel "a"] (by simp)

/-- C5, counterexample:  On the empty record list the claim promises a
0-row matrix, but `np.vstack` on the empty batch list raises — the vectorizer
does not return a matrix at all. -/
theorem vectorize_empty_counterexample :
    vectorizeChannels (fun _ => [(0 : ℝ)]) [] = none := by
  simp [vectorizeChannels, toBatches]

lemma stdScale_zero (x mean : ℝ) : stdScale x mean 0 = none := if_pos rfl

/-- C2 (code bug):  The standardization in `vectorize_channels` divides by
the raw column std with *no* epsilon: on two identical channel records every
metadata column is constant, the std is `0`, and each of the five metadata
entries of every row is numpy `nan` (`none`) — the claim's promise that no row
contains an undefined value is violated by the code. -/
theorem vectorize_zero_variance_nan :
    vectorizeChannels (fun _ => []) [testChannel "a", testChannel "a"] =
        some [List.replicate 5 (none : Option ℝ), List.replicate 5 (none : Option ℝ)] ∧
    none ∈ List.replicate 5 (none : Option ℝ) := by
  constructor
  · simp [vectorizeChannels, toBatches, channelText, testChannel, metadataRow,
      standardizeRow, column, List.range_succ, npStd_pair_same, stdScale_zero, lowerStr]
  · simp

/-! ## C3 / C4: theorems about `create_clusters` and `find_optimal_weight` -/

/-- C3 (code bug):  The weight sweep does *not* tolerate an undefined
quality score: `clusters['silhouette_score']` is present-but-`None` for a
degenerate candidate (here the fitted labels collapse to a single group), so
the `.get(..., -1)` default never applies and the subsequent
formatting/comparison of `None` raises a `TypeError` instead of treating the
candidate as worse and returning a weight. -/
theorem find_optimal_weight_crashes_on_undefined_score :
    findOptimalWeight (fun _ => [0, 0]) (fun _ _ => 0) (fun _ => ([], []))
      [[(0 : ℝ)], [0]] [testChannel "a", testChannel "b"] [] =
      Except.error "TypeError: NoneType does not support formatting or comparison" := by
  rw [findOptimalWeight]
  simp [weightSweep, createClusters]

/-- C4, counterexample:  A density-based run whose labels are
`[-1, 0, 0, 1, 1]` has two non-noise groups, yet the code's guard
`min(labels) >= 0` makes the quality score `None` because a noise label is
present — the claim's "even if some points carry the noise label" fails. -/
theorem silhouette_noise_counterexample :
    (createClusters (fun _ => [-1, 0, 0, 1, 1]) (fun _ _ => 0) (fun _ => ([], []))
        [[(0 : ℝ)], [0], [0], [0], [0]] none 10 "dbscan").silhouette_score = none ∧
    (([(-1 : ℤ), 0, 0, 1, 1].filter (fun l => 0 ≤ l)).dedup.length = 2) := by
  constructor
  · simp [createClusters]
  · decide

/-- C4 (amended):  The quality score of a clustering run is undefined
(`none`) exactly when the label assignment has fewer than 2 distinct labels
*or contains a noise label*; when defined it is the clustering-validity score
of the fitted labels, lying in `[-1, 1]` whenever the validity function does. -/
theorem silhouette_defined_iff (fitL : List (List ℝ) → List ℤ)
    (silh : List (List ℝ) → List ℤ → ℝ) (pca : List (List ℝ) → List (List ℝ) × List ℝ)
    (E : List (List ℝ)) (chs : Option (List Channel)) (k : ℕ) (alg : String)
    (hrange : ∀ e l, -1 ≤ silh e l ∧ silh e l ≤ 1) :
    ((createClusters fitL silh pca E chs k alg).silhouette_score = none ↔
      ¬(2 ≤ (fitL E).toFinset.card ∧ ∀ l ∈ fitL E, 0 ≤ l)) ∧
    (∀ s, (createClusters fitL silh pca E chs k alg).silhouette_score = some s →
      -1 ≤ s ∧ s ≤ 1) := by
  have hcard : (fitL E).toFinset.card = (fitL E).dedup.length := List.card_toFinset _
  have hfield : (createClusters fitL silh pca E chs k alg).silhouette_score =
      if 1 < (fitL E).dedup.length ∧ ∀ l ∈ fitL E, 0 ≤ l
      then some (silh E (fitL E)) else none := rfl
  constructor
  · rw [hfield]
    by_cases hcond : 1 < (fitL E).dedup.length ∧ ∀ l ∈ fitL E, 0 ≤ l
    · rw [if_pos hcond]
      simp only [hcard]
      constructor
      · intro h; exact absurd h (by simp)
      · intro h
        exact absurd ⟨by omega, hcond.2⟩ h
    · rw [if_neg hcond]
      simp only [hcard]
      constructor
      · intro _ hc
        exact hcond ⟨by omega, hc.2⟩
      · intro _; trivial
  · intro s hs
    rw [hfield] at hs
    by_cases hcond : 1 < (fitL E).dedup.length ∧ ∀ l ∈ fitL E, 0 ≤ l
    · rw [if_pos hcond] at hs
      cases hs
      exact hrange E (fitL E)
    · rw [if_neg hcond] at hs
      cases hs

/-- Witness for C4's amended statement at a concrete input. -/
theorem silhouette_defined_iff_witness :
    (((createClusters (fun _ => [0, 1]) (fun _ _ => 0) (fun _ => ([], []))
        [[(0 : ℝ)], [0]] none 2 "kmeans").silhouette_score = none ↔
      ¬(2 ≤ (((fun _ => [0, 1]) [[(0 : ℝ)], [0]] : List ℤ)).toFinset.card ∧
        ∀ l ∈ (((fun _ => [0, 1]) [[(0 : ℝ)], [0]] : List ℤ)), 0 ≤ l)) ∧
    (∀ s, (createClusters (fun _ => [0, 1]) (fun _ _ => 0) (fun _ => ([], []))
        [[(0 : ℝ)], [0]] none 2 "kmeans").silhouette_score = some s →
      -1 ≤ s ∧ s ≤ 1)) :=
  silhouette_defined_iff (fun _ => [0, 1]) (fun _ _ => 0) (fun _ => ([], []))
    [[(0 : ℝ)], [0]] none 2 "kmeans" (by intro e l; norm_num)

/-! ## C6: the grouped output partitions the channels -/

lemma addToGroup_sizes (g : List (String × List β)) (k : String) (v : β) :
    ((addToGroup g k v).map (fun p => p.2.length)).sum =
      (g.map (fun p => p.2.length)).sum + 1 := by
  induction g with
  | nil => simp [addToGroup]
  | cons e rest ih =>
    rcases e with ⟨k', vs⟩
    by_cases hk : k' = k
    · simp [addToGroup, hk]
      omega
    · simp [addToGroup, hk, ih]
      omega

lemma addToGroup_flatMap_perm (g : List (String × List β)) (k : String) (v : β) :
    ((addToGroup g k v).flatMap (fun p => p.2)).Perm ((g.flatMap (fun p => p.2)) ++ [v]) := by
  induction g with
  | nil => simp [addToGroup]
  | cons e rest ih =>
    rcases e with ⟨k', vs⟩
    by_cases hk : k' = k
    · simp only [addToGroup, if_pos hk, List.flatMap_cons]
      rw [List.append_assoc, List.append_assoc]
      exact List.Perm.append_left vs List.perm_append_comm
    · simp only [addToGroup, if_neg hk, List.flatMap_cons]
      rw [List.append_assoc]
      exact List.Perm.append_left vs ih

lemma foldl_addToGroup_sizes (key : α → String) (val : α → β) :
    ∀ (l : List α) (acc : List (String × List β)),
      ((l.foldl (fun g x => addToGroup g (key x) (val x)) acc).map
          (fun p => p.2.length)).sum =
        (acc.map (fun p => p.2.length)).sum + l.length := by
  intro l
  induction l with
  | nil => intro acc; simp
  | cons x xs ih =>
    intro acc
    rw [List.foldl_cons, ih, addToGroup_sizes]
    simp
    omega

lemma foldl_addToGroup_perm (key : α → String) (val : α → β) :
    ∀ (l : List α) (acc : List (String × List β)),
      ((l.foldl (fun g x => addToGroup g (key x) (val x)) acc).flatMap
          (fun p => p.2)).Perm ((acc.flatMap (fun p => p.2)) ++ l.map val) := by
  intro l
  induction l with
  | nil => intro acc; simp
  | cons x xs ih =>
    intro acc
    rw [List.foldl_cons]
    have h3 := (ih (addToGroup acc (key x) (val x))).trans
      ((addToGroup_flatMap_perm acc (key x) (val x)).append_right (xs.map val))
    have h4 : ((acc.flatMap (fun p => p.2)) ++ [val x]) ++ xs.map val =
        (acc.flatMap (fun p => p.2)) ++ (x :: xs).map val := by
      rw [List.append_assoc]
      simp
    rw [h4] at h3
    exact h3

/-- C6:  The grouped output of a clustering run partitions the channels:
the group sizes (the `"-1"` noise bucket, when present, is one of the groups)
sum to `N`, and the concatenation of all member lists is a permutation of the
per-channel grouped records — every channel lands in exactly one group. -/
theorem cluster_groups_partition (fitL : List (List ℝ) → List ℤ)
    (silh : List (List ℝ) → List ℤ → ℝ) (pca : List (List ℝ) → List (List ℝ) × List ℝ)
    (E : List (List ℝ)) (chs : List Channel) (k : ℕ) (alg : String)
    (_hlen : (fitL E).length = chs.length) (hne : chs ≠ []) :
    ∃ groups, (createClusters fitL silh pca E (some chs) k alg).channels = some groups ∧
      (groups.map (fun p => p.2.length)).sum = chs.length ∧
      (groups.flatMap (fun p => p.2)).Perm
        (chs.enum.map (fun p => mkGroupedChannel E (pca E).1
          (2 < (E.headD []).length) p.1 p.2)) := by
  obtain ⟨c, cs, rfl⟩ := List.exists_cons_of_ne_nil hne
  refine ⟨groupChannels (fitL E) E (pca E).1 (2 < (E.headD []).length) (c :: cs),
    rfl, ?_, ?_⟩
  · rw [groupChannels, foldl_addToGroup_sizes]
    simp
  · have := foldl_addToGroup_perm
      (fun (p : ℕ × Channel) => toString ((fitL E).getD p.1 0))
      (fun (p : ℕ × Channel) => mkGroupedChannel E (pca E).1
        (2 < (E.headD []).length) p.1 p.2) ((c :: cs).enum) []
    simpa [groupChannels] using this

/-- Witness for C6 at a concrete three-channel run with a noise label. -/
theorem cluster_groups_partition_witness :
    ∃ groups, (createClusters (fun _ => [0, -1, 0]) (fun _ _ => 0) (fun _ => ([], []))
        [[(0 : ℝ)], [0], [0]] (some [testChannel "a", testChannel "b", testChannel "c"])
        2 "dbscan").channels = some groups ∧
      (groups.map (fun p => p.2.length)).sum =
        [testChannel "a", testChannel "b", testChannel "c"].length ∧
      (groups.flatMap (fun p => p.2)).Perm
        ([testChannel "a", testChannel "b", testChannel "c"].enum.map
          (fun p => mkGroupedChannel [[(0 : ℝ)], [0], [0]]
            ((fun _ => (([] : List (List ℝ)), ([] : List ℝ))) [[(0 : ℝ)], [0], [0]]).1
            (2 < ([[(0 : ℝ)], [0], [0]].headD []).length) p.1 p.2)) :=
  cluster_groups_partition (fun _ => [0, -1, 0]) (fun _ _ => 0) (fun _ => ([], []))
    [[(0 : ℝ)], [0], [0]] [testChannel "a", testChannel "b", testChannel "c"]
    2 "dbscan" (by simp) (by simp)

/-! ## C9 / C10: theorems about `name_clusters` -/

lemma assocGet_assocSet_self (m : List (String × β)) (k : String) (v : β) :
    assocGet (assocSet m k v) k = some v := by
  induction m with
  | nil => simp [assocSet, assocGet]
  | cons e rest ih =>
    rcases e with ⟨k', v'⟩
    by_cases hk : k' = k
    · simp [assocSet, assocGet, hk]
    · simp only [assocSet, if_neg hk, assocGet]
      exact ih

lemma assocGet_assocSet_ne (m : List (String × β)) {k k' : String} (v : β)
    (h : k' ≠ k) : assocGet (assocSet m k' v) k = assocGet m k := by
  induction m with
  | nil => simp [assocSet, assocGet, h]
  | cons e rest ih =>
    rcases e with ⟨k'', v''⟩
    by_cases hk : k'' = k'
    · subst hk
      simp only [assocSet, if_pos rfl, assocGet]
      rw [if_neg h, if_neg h]
    · simp only [assocSet, if_neg hk, assocGet]
      by_cases hk2 : k'' = k
      · rw [if_pos hk2, if_pos hk2]
      · rw [if_neg hk2, if_neg hk2]
        exact ih

/-- Every category scores zero when the combined text and member keyword lists
contain no occurrence of any taxonomy keyword. -/
lemma categoryScores_all_zero {chs : List GroupedChannel}
    (h : ∀ p ∈ TOPIC_MAP, ∀ kw ∈ p.2,
      strCount (lowerStr kw) (combinedTextOf chs) = 0 ∧
      (allKeywordsOf chs).count (lowerStr kw) = 0) :
    ∀ p ∈ categoryScores (combinedTextOf chs) (allKeywordsOf chs), p.2 = 0 := by
  intro p hp
  obtain ⟨⟨cat, kws⟩, hmem, rfl⟩ := List.mem_map.mp hp
  simp only [categoryScore]
  have h1 : (kws.map (fun k => strCount (lowerStr k) (combinedTextOf chs))).sum = 0 := by
    refine List.sum_eq_zero ?_
    intro x hx
    obtain ⟨kw, hkw, rfl⟩ := List.mem_map.mp hx
    exact (h (cat, kws) hmem kw hkw).1
  have h2 : (kws.map (fun k => (allKeywordsOf chs).count (lowerStr k) * 2)).sum = 0 := by
    refine List.sum_eq_zero ?_
    intro x hx
    obtain ⟨kw, hkw, rfl⟩ := List.mem_map.mp hx
    rw [(h (cat, kws) hmem kw hkw).2]
    simp
  rw [h1, h2]

/-- Zero scores force the positional fallback name, whatever the engagement
thresholds are. -/
lemma clusterNameFor_fallback (th : ℚ × ℚ × ℚ) (label : String)
    (chs : List GroupedChannel)
    (hzero : ∀ p ∈ categoryScores (combinedTextOf chs) (allKeywordsOf chs), p.2 = 0) :
    clusterNameFor th label chs = "Cluster " ++ label := by
  rcases hsort : topCategories (combinedTextOf chs) (allKeywordsOf chs) with _ | ⟨top, rest⟩
  · simp only [clusterNameFor, hsort]
  · have hmem : top ∈ categoryScores (combinedTextOf chs) (allKeywordsOf chs) := by
      have hperm := List.perm_insertionSort (fun a b : String × ℕ => b.2 ≤ a.2)
        (categoryScores (combinedTextOf chs) (allKeywordsOf chs))
      refine hperm.mem_iff.mp ?_
      rw [topCategories] at hsort
      rw [hsort]
      exact List.mem_cons_self _ _
    have htop : top.2 = 0 := hzero top hmem
    simp only [clusterNameFor, hsort, htop]
    simp

/-- Processing groups whose labels differ from `label` does not change the
recorded name for `label`. -/
lemma nameClusters_fold_preserve (th : ℚ × ℚ × ℚ) :
    ∀ (groups : List (String × List GroupedChannel)) (c : Clusters) (label : String),
      label ∉ groups.map Prod.fst →
      assocGet ((groups.foldl (fun c g =>
        { c with
          cluster_names := assocSet c.cluster_names g.1 (clusterNameFor th g.1 g.2)
          cluster_metadata := assocSet c.cluster_metadata g.1 (clusterMetaFor th g.2) })
        c).cluster_names) label = assocGet c.cluster_names label := by
  intro groups
  induction groups with
  | nil => intro c label _; rfl
  | cons g rest ih =>
    intro c label hnotin
    rw [List.foldl_cons]
    have hne : g.1 ≠ label := by
      intro h
      exact hnotin (h ▸ List.mem_map_of_mem Prod.fst (List.mem_cons_self g rest))
    rw [ih _ label (fun h => hnotin (List.mem_cons_of_mem _ h))]
    exact assocGet_assocSet_ne _ _ hne

/-- After the naming fold, the name recorded for a group present in the (dup
free) group list is exactly the name computed for that group. -/
lemma nameClusters_fold_names (th : ℚ × ℚ × ℚ) :
    ∀ (groups : List (String × List GroupedChannel)) (c : Clusters) (label : String)
      (chs : List GroupedChannel),
      (label, chs) ∈ groups → (groups.map Prod.fst).Nodup →
      assocGet ((groups.foldl (fun c g =>
        { c with
          cluster_names := assocSet c.cluster_names g.1 (clusterNameFor th g.1 g.2)
          cluster_metadata := assocSet c.cluster_metadata g.1 (clusterMetaFor th g.2) })
        c).cluster_names) label = some (clusterNameFor th label chs) := by
  intro groups
  induction groups with
  | nil => intro c label chs hmem _; simp at hmem
  | cons g rest ih =>
    intro c label chs hmem hnodup
    rw [List.foldl_cons]
    rcases List.mem_cons.mp hmem with hhead | htail
    · subst hhead
      rw [nameClusters_fold_preserve th rest _ label (List.nodup_cons.mp hnodup).1]
      exact assocGet_assocSet_self _ _ _
    · exact ih _ label chs htail (List.nodup_cons.mp hnodup).2

/-- C9:  A group whose combined member text (titles, descriptions) and
member keyword lists contain zero occurrences of every taxonomy keyword is
named exactly `"Cluster <label>"` — no engagement suffix, no secondary
category. -/
theorem namer_zero_match_fallback (c : Clusters)
    (groups : List (String × List GroupedChannel)) (label : String)
    (chs : List GroupedChannel)
    (h1 : c.channels = some groups) (h2 : (label, chs) ∈ groups)
    (h3 : (groups.map Prod.fst).Nodup)
    (h4 : ∀ p ∈ TOPIC_MAP, ∀ kw ∈ p.2,
      strCount (lowerStr kw) (combinedTextOf chs) = 0 ∧
      (allKeywordsOf chs).count (lowerStr kw) = 0) :
    assocGet (nameClusters c).cluster_names label = some ("Cluster " ++ label) := by
  unfold nameClusters
  rw [h1]
  simp only
  rw [nameClusters_fold_names _ groups c label chs h2 h3,
    clusterNameFor_fallback _ label chs (categoryScores_all_zero h4)]

/-- Witness for C9: the single-group fixture, whose combined text is `" "`. -/
theorem namer_zero_match_fallback_witness :
    assocGet (nameClusters testClustersOneGroup).cluster_names "5" =
      some ("Cluster " ++ "5") :=
  namer_zero_match_fallback testClustersOneGroup [("5", [testGroupedChannel])] "5"
    [testGroupedChannel] rfl (List.mem_cons_self _ _) (by simp) (by decide)

/-- C10:  When the cluster result has no `'channels'` grouping, the namer
returns it exactly unchanged: no exception, no names, no metadata. -/
theorem namer_identity_without_grouping (c : Clusters) (h : c.channels = none) :
    nameClusters c = c := by
  unfold nameClusters
  rw [h]

/-- Witness for C10 at a concrete channel-less cluster result. -/
theorem namer_identity_without_grouping_witness :
    nameClusters testClustersNoChannels = testClustersNoChannels :=
  namer_identity_without_grouping testClustersNoChannels rfl

end YTCluster
